import Mathlib

/-!
# Verification of the mapbox-clustering engine

Shallow embedding of the repository's source files:

* `src/lib/grid.ts`   — grid clustering (`grid`)
* `src/lib/dbscan.ts` — DBSCAN clustering (`dbscan` and its helpers)
* `src/lib/index.ts`  — the layer controller (`addClusteredLayer`'s
  recompute body, its module-global `markers` list and `clearMarkers`)

Conventions used throughout:

* JS `number` is modelled as `ℚ`.
* JS arrays holding per-index algorithm state (`visited`, `labels`,
  `corePoints`, `clusters`) are modelled as functions from the index.
* JS exceptions are modelled with `Except` (or an explicit error flag where
  the partial state at the moment of the throw matters).
* The TS string cell id `"a;b"` and the string cluster id of dbscan are
  modelled by the data they injectively render: a pair of integers
  respectively a natural number.
* `dbscan`'s `buildDistance` either returns `options.distance` or composes
  square-root Euclidean distance over `options.vector`; the square root is
  not rational-valued, so the embedding takes the already-resolved distance
  function `dist` as the option.  All theorems below hold for an arbitrary
  distance function and therefore for both branches.
* The lazy `neighborsCache` memoisation of `regionQuery` is semantically
  transparent (the distance function is pure), so `regionQuery` is embedded
  as the recomputation it caches.
-/

/-- A latitude/longitude record: the `{ lat, lng }` object shape used by the
library.  (The README's `LatLng` also documents an optional `weight` field;
no code under `src/` ever reads it, and the centre computations below ignore
it, matching the source.) -/
structure LatLng where
  lat : ℚ
  lng : ℚ
deriving DecidableEq

instance : Inhabited LatLng := ⟨⟨0, 0⟩⟩

/-- TS uses structural typing (`T extends { lat: number; lng: number }`);
this class provides the structural `.lat`/`.lng` reads. -/
class HasLatLng (T : Type) where
  lat : T → ℚ
  lng : T → ℚ

instance : HasLatLng LatLng := ⟨LatLng.lat, LatLng.lng⟩

/-! ## Grid clustering (`src/lib/grid.ts`) -/

/-- `GridOptions` of `grid`.  `vector` yields the two components read by
`const [x, y] = options.vector(point)`. -/
structure GridOptions (T : Type) where
  cellSize : ℚ
  vector : T → ℚ × ℚ

/-- A cluster record returned by `grid`.  The TS `id` is the string
`"floor(x/cellSize);floor(y/cellSize)"`; that rendering is injective in the
two integers, which are kept as a pair. -/
structure GridCluster (T : Type) where
  id : ℤ × ℤ
  center : LatLng
  points : List T
deriving DecidableEq

/-- The `groupID` of a point: floor-divide both vector components by
`cellSize`. -/
def cellId {T : Type} (o : GridOptions T) (p : T) : ℤ × ℤ :=
  (⌊(o.vector p).1 / o.cellSize⌋, ⌊(o.vector p).2 / o.cellSize⌋)

/-- `buckets[groupID] ||= []; buckets[groupID].push(point)` on a JS object,
whose string-keyed entries enumerate in key insertion order (no key here is
array-index-like): an association list updated in place, keys appearing in
first-insertion order, each value extended at the end.  Generic in the key
type so that it also serves dbscan's `groupByCluster` map. -/
def upsertA {K T : Type} [DecidableEq K] :
    List (K × List T) → K → T → List (K × List T)
  | [], k, v => [(k, [v])]
  | (k', vs) :: rest, k, v =>
    if k' = k then (k', vs ++ [v]) :: rest else (k', vs) :: upsertA rest k v

/-- The bucket-filling loop of `grid`. -/
def gridBuckets {T : Type} (data : List T) (o : GridOptions T) :
    List ((ℤ × ℤ) × List T) :=
  data.foldl (fun b p => upsertA b (cellId o p) p) []

/-- The centre loop of `grid`: accumulate `lat`/`lng`, then divide by the
member count. -/
def centerOf {T : Type} [HasLatLng T] (points : List T) : LatLng :=
  ⟨(points.foldl (fun s p => s + HasLatLng.lat p) 0) / points.length,
   (points.foldl (fun s p => s + HasLatLng.lng p) 0) / points.length⟩

/-- `grid(data, options)`: one cluster per non-empty bucket, in bucket
order.  The source contains no validation and no `throw`, so the embedding
is a total function. -/
def grid {T : Type} [HasLatLng T] (data : List T) (o : GridOptions T) :
    List (GridCluster T) :=
  (gridBuckets data o).map (fun kv => ⟨kv.1, centerOf kv.2, kv.2⟩)

/-! ## DBSCAN (`src/lib/dbscan.ts`) -/

/-- `DbscanOptions`, with `dist` the resolved result of `buildDistance`
(see the header comment). -/
structure DbOptions (T : Type) where
  eps : ℚ
  minPts : ℚ
  coord : T → LatLng
  dist : T → T → ℚ

/-- The per-run mutable arrays of `dbscan`, as functions of the index. -/
structure DbState where
  visited : ℕ → Bool
  labels : ℕ → ℤ
  core : ℕ → Bool
  clusters : ℕ → List ℕ

/-- Point update of an index-function (a JS `arr[i] = v` write). -/
def updF {α : Type} (f : ℕ → α) (i : ℕ) (v : α) : ℕ → α :=
  fun j => if j = i then v else f j

/-- `visited` all 0, `labels` filled with `-1`, `corePoints` all false,
`clusters` empty. -/
def initDbState : DbState :=
  ⟨fun _ => false, fun _ => (-1 : ℤ), fun _ => false, fun _ => []⟩

/-- `regionQuery(i)`: every index `j` of the input with
`dist(points[i], points[j]) <= eps`, the point itself included when
`eps >= 0` (both comparisons exactly as in the source). -/
def regionQuery {T : Type} [Inhabited T] (pts : List T) (o : DbOptions T)
    (i : ℕ) : List ℕ :=
  (List.range pts.length).filter (fun j =>
    if i = j then decide ((0 : ℚ) ≤ o.eps)
    else decide (o.dist (pts.getD i default) (pts.getD j default) ≤ o.eps))

/-- `queueIncludes`: linear membership test. -/
def queueIncludes (arr : List ℕ) (x : ℕ) : Bool := arr.contains x

/-- The neighbour-merging loop of `expandCluster`: push each neighbour that
is not already in the queue.  Later pushes see earlier ones. -/
def pushNew (queue : List ℕ) (nbs : List ℕ) : List ℕ :=
  nbs.foldl (fun q nb => if queueIncludes q nb then q else q ++ [nb]) queue

/-- One iteration of `expandCluster`'s queue loop, for the dequeued index
`j = queue[q]`: if unvisited, visit it, and when its neighbourhood passes
the density test mark it core and merge its neighbours; then, whenever it is
still unlabelled, assign it to the current cluster. -/
def expandStep {T : Type} [Inhabited T] (pts : List T) (o : DbOptions T)
    (cid : ℕ) (st : DbState) (queue : List ℕ) (j : ℕ) : DbState × List ℕ :=
  let p1 :=
    if st.visited j then (st, queue)
    else
      let st1 : DbState := { st with visited := updF st.visited j true }
      let jN := regionQuery pts o j
      if ((jN.length : ℚ) + 1) ≥ o.minPts then
        ({ st1 with core := updF st1.core j true }, pushNew queue jN)
      else (st1, queue)
  let st2 := p1.1
  if st2.labels j = -1 then
    ({ st2 with
        labels := updF st2.labels j (cid : ℤ),
        clusters := updF st2.clusters cid (st2.clusters cid ++ [j]) }, p1.2)
  else (st2, p1.2)

/-- `for (let q = 0; q < queue.length; q++)` of `expandCluster`.  The queue
only grows, so the loop is driven by explicit fuel; `none` is the
fuel-exhaustion marker, proved unreachable for the fuel `dbscan` supplies
(the queue is duplicate-free and bounded by the point count). -/
def expandLoop {T : Type} [Inhabited T] (pts : List T) (o : DbOptions T)
    (cid : ℕ) : ℕ → ℕ → List ℕ → DbState → Option DbState
  | 0, q, queue, st => if queue.length ≤ q then some st else none
  | fuel + 1, q, queue, st =>
    if q < queue.length then
      let j := queue.getD q 0
      let p := expandStep pts o cid st queue j
      expandLoop pts o cid fuel (q + 1) p.2 p.1
    else some st

/-- `expandCluster(seedIndex, seedNeighbors, cid)`: label the seed, mark it
core, push it onto `clusters[cid]`, then run the queue loop over a copy of
the seed's neighbour list. -/
def expandCluster {T : Type} [Inhabited T] (pts : List T) (o : DbOptions T)
    (seed : ℕ) (seedNeighbors : List ℕ) (cid : ℕ) (st : DbState) :
    Option DbState :=
  let st1 : DbState := { st with
    labels := updF st.labels seed (cid : ℤ),
    core := updF st.core seed true,
    clusters := updF st.clusters cid (st.clusters cid ++ [seed]) }
  expandLoop pts o cid pts.length 0 seedNeighbors st1

/-- One iteration of `dbscan`'s main loop at index `i`: skip if visited,
else visit, run the region query, and either provisionally label `i` noise
or start and expand cluster `clusterId` (note the source's density test
adds `+ 1` for the point itself even though `regionQuery` already includes
it). -/
def mainStep {T : Type} [Inhabited T] (pts : List T) (o : DbOptions T)
    (acc : DbState × ℕ) (i : ℕ) : Option (DbState × ℕ) :=
  let st := acc.1
  let cid := acc.2
  if st.visited i then some acc
  else
    let st1 : DbState := { st with visited := updF st.visited i true }
    let neigh := regionQuery pts o i
    if ((neigh.length : ℚ) + 1) < o.minPts then
      some ({ st1 with labels := updF st1.labels i (-1) }, cid)
    else
      match expandCluster pts o i neigh cid
          { st1 with clusters := updF st1.clusters cid [] } with
      | some st2 => some (st2, cid + 1)
      | none => none

/-- `for (let i = 0; i < n; i++)` of `dbscan`. -/
def mainLoop {T : Type} [Inhabited T] (pts : List T) (o : DbOptions T) :
    List ℕ → DbState × ℕ → Option (DbState × ℕ)
  | [], acc => some acc
  | i :: rest, acc =>
    match mainStep pts o acc i with
    | some acc1 => mainLoop pts o rest acc1
    | none => none

/-- The final `(state, clusterId)` of the main loop. -/
def dbscanState {T : Type} [Inhabited T] (pts : List T) (o : DbOptions T) :
    Option (DbState × ℕ) :=
  mainLoop pts o (List.range pts.length) (initDbState, 0)

/-- The post-pass border flags: labelled but never marked core.  (Computed
by the source but not part of its return value.) -/
def borderFlags (st : DbState) : ℕ → Bool :=
  fun i => decide (0 ≤ st.labels i) && !(st.core i)

/-- The post-pass noise list: indices still labelled `-1`.  (Computed by
the source but not part of its return value.) -/
def noiseIndices (n : ℕ) (st : DbState) : List ℕ :=
  (List.range n).filter (fun i => st.labels i = -1)

/-- Stable insertion into a key-sorted association list (strictly smaller
keys first; keys here are unique). -/
def insertSorted {T : Type} (e : ℤ × List T) :
    List (ℤ × List T) → List (ℤ × List T)
  | [] => [e]
  | f :: rest => if e.1 < f.1 then e :: f :: rest else f :: insertSorted e rest

/-- `Array.from(map.entries()).sort((a, b) => a[0] - b[0])`: sort the
entries by ascending numeric key. -/
def sortByKey {T : Type} : List (ℤ × List T) → List (ℤ × List T)
  | [] => []
  | e :: rest => insertSorted e (sortByKey rest)

/-- The entry-collection loop of `groupByCluster`: walk the indices in
order, skip negative labels, append `items[i]` to the bucket of its label
(a JS `Map`, enumerating in key insertion order). -/
def gbcEntries {T : Type} [Inhabited T] (items : List T) (labels : ℕ → ℤ) :
    List (ℤ × List T) :=
  (List.range items.length).foldl
    (fun m i =>
      if labels i < 0 then m else upsertA m (labels i) (items.getD i default))
    []

/-- `groupByCluster(items, labels)`: group by label, sort by cluster id,
keep the groups. -/
def groupByCluster {T : Type} [Inhabited T] (items : List T)
    (labels : ℕ → ℤ) : List (List T) :=
  (sortByKey (gbcEntries items labels)).map Prod.snd

/-- A cluster record returned by `dbscan`.  The TS `id` is the decimal
string of the group's position, an injective rendering of the position
itself. -/
structure DbCluster (T : Type) where
  id : ℕ
  center : LatLng
  points : List T
deriving DecidableEq

/-- The centre loop of `dbscan`'s output construction: accumulate the
`coord` accessor's lat/lng, then divide by the member count. -/
def dbCenter {T : Type} (o : DbOptions T) (points : List T) : LatLng :=
  ⟨(points.foldl (fun s p => s + (o.coord p).lat) 0) / points.length,
   (points.foldl (fun s p => s + (o.coord p).lng) 0) / points.length⟩

/-- `groupByCluster(points, labels).map((points, i) => ...)`. -/
def buildClusters {T : Type} [Inhabited T] (pts : List T) (o : DbOptions T)
    (labels : ℕ → ℤ) : List (DbCluster T) :=
  (groupByCluster pts labels).enum.map (fun e => ⟨e.1, dbCenter o e.2, e.2⟩)

/-- `dbscan(points, options)`: validate `eps` and `minPts` (the only two
`throw`s of the source, modelled as `Except.error`), run the main loop,
convert the labels into cluster records.  The third error is the
fuel-exhaustion marker of `expandLoop`, proved unreachable below. -/
def dbscan {T : Type} [Inhabited T] (pts : List T) (o : DbOptions T) :
    Except String (List (DbCluster T)) :=
  if ¬ (o.eps > 0) then .error "eps must be > 0"
  else if ¬ (o.minPts ≥ 1) then .error "minPts must be >= 1"
  else
    match dbscanState pts o with
    | some acc => .ok (buildClusters pts o acc.1.labels)
    | none => .error "expansion loop exceeded its fuel"

/-! ## Layer controller (`src/lib/index.ts`) -/

/-- The host map collaborator: `getBounds()` (with `bounds.contains`
curried into it) and `project`. -/
structure HostMap (P : Type) where
  boundsContains : Option (P → Bool)
  project : P → ℚ × ℚ

/-- One entry of the module-global `markers` array.  `owner` records which
`addClusteredLayer` call pushed the marker — the source itself stores no
such tag, which is exactly what the ownership theorems below are about.
`element` is the parsed custom element, `none` for the default marker. -/
structure MarkerRec (E : Type) where
  owner : ℕ
  pos : LatLng
  element : Option E
deriving DecidableEq

/-- `html ? htmlToElement(html) : undefined`, with `htmlToElement`'s
DOM parsing abstracted into `parse` and its single-root check into
`parse` returning `none` (the thrown `Error`).  An empty string is falsy
in JS, hence yields the default marker, not a parse attempt. -/
def elementOf {E : Type} (parse : String → Option E) (html : Option String) :
    Except String (Option E) :=
  match html with
  | none => .ok none
  | some s =>
    if s = "" then .ok none
    else
      match parse s with
      | some e => .ok (some e)
      | none => .error "Provided HTML must represent a single HTML element."

/-- The marker-creation loop of the recompute body.  The `Bool` of the
result records whether `htmlToElement` threw, in which case the loop stops
with the markers pushed so far (the state the JS global is left in). -/
def renderLoop {P E : Type} (owner : ℕ) (parse : String → Option E)
    (clusterHTML : List P → Option String) :
    List (GridCluster P) → List (MarkerRec E) → List (MarkerRec E) × Bool
  | [], ms => (ms, false)
  | g :: rest, ms =>
    match elementOf parse (clusterHTML g.points) with
    | .ok el => renderLoop owner parse clusterHTML rest (ms ++ [⟨owner, g.center, el⟩])
    | .error _ => (ms, true)

/-- The throttled recompute body installed by `addClusteredLayer`, acting on
the module-global `markers` list: bail out if the map is falsy, _clear all
markers_, read the bounds and bail out if they are unavailable, filter the
data to the bounds, grid-cluster the projected points with cell size 150,
and create one marker per cluster.  Returns the new global marker list and
whether an exception escaped. -/
def computeBody {P E : Type} [HasLatLng P] (owner : ℕ)
    (map? : Option (HostMap P)) (data : List P)
    (clusterHTML : List P → Option String) (parse : String → Option E)
    (markers : List (MarkerRec E)) : List (MarkerRec E) × Bool :=
  match map? with
  | none => (markers, false)
  | some m =>
    match m.boundsContains with
    | none => ([], false)
    | some contains =>
      let filtered := data.filter (fun p => contains p)
      let groups := grid filtered ⟨150, fun p => m.project p⟩
      renderLoop owner parse clusterHTML groups []

/-- The flattened member lists of a bucket association list. -/
def flatPoints {K T : Type} (b : List (K × List T)) : List T :=
  (b.map Prod.snd).flatten

/-! ## Helper definitions for the dbscan theorems -/

/-- The density test the source applies (`neigh.length + 1 >= minPts`,
with `regionQuery` already containing the point itself). -/
def codeCore {T : Type} [Inhabited T] (pts : List T) (o : DbOptions T)
    (i : ℕ) : Prop :=
  ((regionQuery pts o i).length : ℚ) + 1 ≥ o.minPts

instance {T : Type} [Inhabited T] (pts : List T) (o : DbOptions T) (i : ℕ) :
    Decidable (codeCore pts o i) :=
  inferInstanceAs (Decidable (_ ≥ _))

/-- Total number of occurrences of `x` over a list of groups. -/
def countOcc {T : Type} [DecidableEq T] (G : List (List T)) (x : T) : ℕ :=
  (G.map (fun g => g.count x)).sum

/-- Labels are `-1` or a cluster id. -/
def LabelsClean (st : DbState) : Prop :=
  ∀ x, st.labels x = -1 ∨ 0 ≤ st.labels x

/-- Labelled points are visited. -/
def VisCons (st : DbState) : Prop :=
  ∀ x, 0 ≤ st.labels x → st.visited x = true

/-- Between queue iterations: every neighbour of a visited dense point is
labelled or still queued. -/
def InvIn {T : Type} [Inhabited T] (pts : List T) (o : DbOptions T)
    (st : DbState) (queue : List ℕ) : Prop :=
  ∀ i, st.visited i = true → codeCore pts o i →
    ∀ x ∈ regionQuery pts o i, 0 ≤ st.labels x ∨ x ∈ queue

/-- Between main-loop iterations: every neighbour of a visited dense point
is labelled. -/
def InvOut {T : Type} [Inhabited T] (pts : List T) (o : DbOptions T)
    (st : DbState) : Prop :=
  ∀ i, st.visited i = true → codeCore pts o i →
    ∀ x ∈ regionQuery pts o i, 0 ≤ st.labels x

/-- Every labelled point lies in the neighbourhood of some dense point. -/
def Provenance {T : Type} [Inhabited T] (pts : List T) (o : DbOptions T)
    (st : DbState) : Prop :=
  ∀ x, 0 ≤ st.labels x →
    ∃ c, c < pts.length ∧ codeCore pts o c ∧ x ∈ regionQuery pts o c

/-- Every queued index lies in the neighbourhood of some dense point. -/
def QueueProv {T : Type} [Inhabited T] (pts : List T) (o : DbOptions T)
    (queue : List ℕ) : Prop :=
  ∀ x ∈ queue, ∃ c, c < pts.length ∧ codeCore pts o c ∧ x ∈ regionQuery pts o c

/-! ## Theorems -/

theorem flatPoints_nil {K T : Type} : flatPoints ([] : List (K × List T)) = [] := rfl

theorem flatPoints_cons {K T : Type} (e : K × List T) (b : List (K × List T)) :
    flatPoints (e :: b) = e.2 ++ flatPoints b := rfl

theorem flatPoints_upsertA {K T : Type} [DecidableEq K] [DecidableEq T]
    (b : List (K × List T)) (k : K) (v : T) (x : T) :
    (flatPoints (upsertA b k v)).count x =
      (flatPoints b).count x + (if x = v then 1 else 0) := by
  induction b with
  | nil =>
    by_cases hxv : x = v <;>
      simp [flatPoints, upsertA, hxv]
  | cons hd tl ih =>
    obtain ⟨k', vs⟩ := hd
    by_cases hk : k' = k
    · by_cases hxv : x = v <;>
        simp [upsertA, hk, hxv, flatPoints_cons, List.count_append] <;> omega
    · simp [upsertA, hk, flatPoints_cons, List.count_append, ih]
      omega

theorem gridBuckets_count {T : Type} [DecidableEq T]
    (o : GridOptions T) (data : List T) :
    ∀ (acc : List ((ℤ × ℤ) × List T)) (x : T),
      (flatPoints (data.foldl (fun b p => upsertA b (cellId o p) p) acc)).count x =
        (flatPoints acc).count x + data.count x := by
  induction data with
  | nil => simp
  | cons p rest ih =>
    intro acc x
    simp only [List.foldl_cons]
    rw [ih, flatPoints_upsertA]
    by_cases hxp : x = p <;> simp [hxp, List.count_cons] <;> omega

theorem upsertA_snd_prop {K T : Type} [DecidableEq K]
    (b : List (K × List T)) (k : K) (v : T) (pre : List T)
    (hb : ∀ kv ∈ b, kv.2 ≠ [] ∧ kv.2.Sublist pre) :
    ∀ kv ∈ upsertA b k v, kv.2 ≠ [] ∧ kv.2.Sublist (pre ++ [v]) := by
  induction b with
  | nil =>
    intro kv hkv
    simp [upsertA] at hkv
    subst hkv
    exact ⟨by simp, by simp⟩
  | cons hd tl ih =>
    obtain ⟨k', vs⟩ := hd
    by_cases hk : k' = k
    · intro kv hkv
      simp [upsertA, hk] at hkv
      rcases hkv with h | h
      · subst h
        refine ⟨by simp, ?_⟩
        have := (hb (k, vs) (by simp [hk])).2
        exact this.append (List.Sublist.refl [v])
      · have := hb kv (List.mem_cons_of_mem _ h)
        exact ⟨this.1, this.2.trans (List.sublist_append_left pre [v])⟩
    · intro kv hkv
      simp only [upsertA, if_neg hk] at hkv
      rcases List.mem_cons.mp hkv with h | h
      · subst h
        have := hb (k', vs) (by simp)
        exact ⟨this.1, this.2.trans (List.sublist_append_left pre [v])⟩
      · exact ih (fun kv h => hb kv (List.mem_cons_of_mem _ h)) kv h

theorem gridBuckets_snd_prop {T : Type} (o : GridOptions T) (data : List T) :
    ∀ (acc : List ((ℤ × ℤ) × List T)) (pre : List T),
      (∀ kv ∈ acc, kv.2 ≠ [] ∧ kv.2.Sublist pre) →
      ∀ kv ∈ data.foldl (fun b p => upsertA b (cellId o p) p) acc,
        kv.2 ≠ [] ∧ kv.2.Sublist (pre ++ data) := by
  induction data with
  | nil => simpa using fun acc pre h => h
  | cons p rest ih =>
    intro acc pre hacc
    simp only [List.foldl_cons]
    have step := upsertA_snd_prop acc (cellId o p) p pre hacc
    have := ih (upsertA acc (cellId o p) p) (pre ++ [p]) step
    simpa using this

/-- **C2.** For every input list and every grid options value (positive
`cellSize`, any vector accessor), the multiset union of the `points` arrays
of the clusters returned by `grid` is exactly the input: every input point
occurs exactly once over all returned clusters, and every returned cluster
is non-empty with its `points` in the input's relative order (a sublist of
the input). -/
theorem c2_grid_partition {T : Type} [HasLatLng T] [DecidableEq T]
    (data : List T) (o : GridOptions T) (hcs : 0 < o.cellSize) :
    (((grid data o).map GridCluster.points).flatten).Perm data ∧
      ∀ c ∈ grid data o, c.points ≠ [] ∧ c.points.Sublist data := by
  constructor
  · apply List.perm_iff_count.mpr
    intro x
    have h := gridBuckets_count o data [] x
    simpa [grid, gridBuckets, flatPoints, List.map_map, Function.comp] using h
  · intro c hc
    simp only [grid, List.mem_map] at hc
    obtain ⟨kv, hkv, rfl⟩ := hc
    have h := gridBuckets_snd_prop o data [] [] (by simp) kv
    simpa [gridBuckets] using h hkv

/-- Witness for `c2_grid_partition` at a concrete input. -/
theorem c2_grid_partition_witness :
    ((0 : ℚ) < 150) ∧
      ((((grid [(⟨0, 0⟩ : LatLng), ⟨0, 1/1000⟩]
            ⟨150, fun p => (p.lng, p.lat)⟩).map GridCluster.points).flatten).Perm
          [(⟨0, 0⟩ : LatLng), ⟨0, 1/1000⟩] ∧
        ∀ c ∈ grid [(⟨0, 0⟩ : LatLng), ⟨0, 1/1000⟩] ⟨150, fun p => (p.lng, p.lat)⟩,
          c.points ≠ [] ∧ c.points.Sublist [(⟨0, 0⟩ : LatLng), ⟨0, 1/1000⟩]) :=
  ⟨by norm_num,
   c2_grid_partition [(⟨0, 0⟩ : LatLng), ⟨0, 1/1000⟩]
     ⟨150, fun p => (p.lng, p.lat)⟩ (by norm_num)⟩

/-- **C5, counterexample.** With `cellSize = -1 ≤ 0` and a one-point input,
`grid` returns an ordinary one-cluster list: there is no thrown
invalid-parameter failure anywhere in `grid` (the source contains no
validation and no `throw`, which is why the embedding is a total function
rather than `Except`-valued). -/
theorem c5_counterexample :
    grid [(⟨0, 0⟩ : LatLng)] ⟨-1, fun p => (p.lat, p.lng)⟩ =
      [⟨(0, 0), ⟨0, 0⟩, [⟨0, 0⟩]⟩] := by
  with_unfolding_all rfl

/-- **C5, amended.** `grid` does not validate `cellSize`: for every input
and every options value with `cellSize < 0` it returns a cluster list
normally, and that list still partitions the input exactly (the `cellSize`
only enters the bucket keys). -/
theorem c5_amended_no_validation {T : Type} [HasLatLng T] [DecidableEq T]
    (data : List T) (o : GridOptions T) (hcs : o.cellSize < 0) :
    (((grid data o).map GridCluster.points).flatten).Perm data ∧
      ∀ c ∈ grid data o, c.points ≠ [] ∧ c.points.Sublist data := by
  constructor
  · apply List.perm_iff_count.mpr
    intro x
    have h := gridBuckets_count o data [] x
    simpa [grid, gridBuckets, flatPoints, List.map_map, Function.comp] using h
  · intro c hc
    simp only [grid, List.mem_map] at hc
    obtain ⟨kv, hkv, rfl⟩ := hc
    have h := gridBuckets_snd_prop o data [] [] (by simp) kv
    simpa [gridBuckets] using h hkv

/-- Witness for `c5_amended_no_validation` at a concrete input. -/
theorem c5_amended_witness :
    ((-1 : ℚ) < 0) ∧
      ((((grid [(⟨0, 0⟩ : LatLng)] ⟨-1, fun p => (p.lat, p.lng)⟩).map
            GridCluster.points).flatten).Perm [(⟨0, 0⟩ : LatLng)] ∧
        ∀ c ∈ grid [(⟨0, 0⟩ : LatLng)] ⟨-1, fun p => (p.lat, p.lng)⟩,
          c.points ≠ [] ∧ c.points.Sublist [(⟨0, 0⟩ : LatLng)]) :=
  ⟨by norm_num,
   c5_amended_no_validation [(⟨0, 0⟩ : LatLng)]
     ⟨-1, fun p => (p.lat, p.lng)⟩ (by norm_num)⟩

/-- **C9.** Every cluster returned by `grid` has `center` equal to the
unweighted arithmetic mean of its members' lat/lng; every cluster returned
by `dbscan` likewise (over the `coord` accessor); and concretely, the
scenario `grid([{lat:0,lng:0},{lat:0,lng:0.001}], {cellSize:150, vector: p
=> [0,0]})` yields exactly one cluster holding both points with center
`{lat: 0, lng: 0.0005}`. -/
theorem c9_center_is_mean :
    (∀ (T : Type) (iT : HasLatLng T) (data : List T) (o : GridOptions T),
        ∀ c ∈ @grid T iT data o, c.center = @centerOf T iT c.points) ∧
      (∀ (T : Type) (iT : Inhabited T) (pts : List T) (o : DbOptions T)
          (L : List (DbCluster T)),
          @dbscan T iT pts o = .ok L → ∀ c ∈ L, c.center = dbCenter o c.points) ∧
      grid [(⟨0, 0⟩ : LatLng), ⟨0, 1/1000⟩] ⟨150, fun _ => (0, 0)⟩ =
        [⟨(0, 0), ⟨0, 1/2000⟩, [⟨0, 0⟩, ⟨0, 1/1000⟩]⟩] := by
  refine ⟨?_, ?_, by with_unfolding_all rfl⟩
  · intro T iT data o c hc
    simp only [grid, List.mem_map] at hc
    obtain ⟨kv, _, rfl⟩ := hc
    rfl
  · intro T iT pts o L hL c hc
    rw [dbscan] at hL
    split at hL
    · exact absurd hL (by simp)
    · split at hL
      · exact absurd hL (by simp)
      · split at hL
        · rename_i acc _
          have hbuild : L = buildClusters pts o acc.1.labels := by
            simpa using hL.symm
          subst hbuild
          simp only [buildClusters, List.mem_map] at hc
          obtain ⟨e, _, rfl⟩ := hc
          rfl
        · exact absurd hL (by simp)

/-- Witness for `c9_center_is_mean`: both universally-quantified parts
applied at concrete runs. -/
theorem c9_center_is_mean_witness :
    ((⟨(0, 0), ⟨0, 1/2000⟩, [⟨0, 0⟩, ⟨0, 1/1000⟩]⟩ : GridCluster LatLng).center =
        centerOf [(⟨0, 0⟩ : LatLng), ⟨0, 1/1000⟩]) ∧
      ((⟨0, ⟨0, 0⟩, [0, 0, 0, 0]⟩ : DbCluster ℚ).center =
        dbCenter ⟨1, 5, fun x => ⟨x, x⟩, fun a b => |a - b|⟩ [0, 0, 0, 0]) := by
  have hg : grid [(⟨0, 0⟩ : LatLng), ⟨0, 1/1000⟩] ⟨150, fun _ => (0, 0)⟩ =
      [⟨(0, 0), ⟨0, 1/2000⟩, [⟨0, 0⟩, ⟨0, 1/1000⟩]⟩] := by
    with_unfolding_all rfl
  have hd : dbscan [(0 : ℚ), 0, 0, 0] ⟨1, 5, fun x => ⟨x, x⟩, fun a b => |a - b|⟩ =
      .ok [⟨0, ⟨0, 0⟩, [0, 0, 0, 0]⟩] := by
    with_unfolding_all rfl
  constructor
  · exact c9_center_is_mean.1 LatLng _ [⟨0, 0⟩, ⟨0, 1/1000⟩] ⟨150, fun _ => (0, 0)⟩
      ⟨(0, 0), ⟨0, 1/2000⟩, [⟨0, 0⟩, ⟨0, 1/1000⟩]⟩
      (by rw [hg]; exact List.mem_singleton_self _)
  · exact c9_center_is_mean.2.1 ℚ _ [0, 0, 0, 0] ⟨1, 5, fun x => ⟨x, x⟩, fun a b => |a - b|⟩
      [⟨0, ⟨0, 0⟩, [0, 0, 0, 0]⟩] hd
      ⟨0, ⟨0, 0⟩, [0, 0, 0, 0]⟩ (List.mem_singleton_self _)

/-- **C3, counterexample.** One marker is rendered and the host map's
`getBounds` returns no bounds; the recompute invocation is _not_ a no-op:
`clearMarkers()` runs before the bounds check, so the invocation empties the
rendered marker set. -/
theorem c3_counterexample :
    computeBody (P := LatLng) (E := ℕ) 1 (some ⟨none, fun _ => (0, 0)⟩) []
        (fun _ => none) (fun _ => none) [⟨1, ⟨0, 0⟩, none⟩] = ([], false) ∧
      ([⟨1, ⟨0, 0⟩, none⟩] : List (MarkerRec ℕ)) ≠ [] := by
  exact ⟨rfl, by simp⟩

/-- **C3, amended.** When the host map's `getBounds` returns no bounds, the
recompute invocation clears the previously rendered markers (the clear runs
before the bounds check) and then aborts without error: the rendered set
afterwards is empty, whatever it was before. -/
theorem c3_amended_bounds_none_clears {P E : Type} [HasLatLng P] (owner : ℕ)
    (m : HostMap P) (data : List P) (clusterHTML : List P → Option String)
    (parse : String → Option E) (markers : List (MarkerRec E))
    (h : m.boundsContains = none) :
    computeBody owner (some m) data clusterHTML parse markers = ([], false) := by
  simp [computeBody, h]

/-- Witness for `c3_amended_bounds_none_clears` at a concrete state. -/
theorem c3_amended_witness :
    ((⟨none, fun _ => (0, 0)⟩ : HostMap LatLng).boundsContains = none) ∧
      computeBody (P := LatLng) (E := ℕ) 1 (some ⟨none, fun _ => (0, 0)⟩) []
        (fun _ => none) (fun _ => none) [⟨1, ⟨0, 0⟩, none⟩, ⟨2, ⟨1, 1⟩, none⟩] =
        ([], false) :=
  ⟨rfl,
   c3_amended_bounds_none_clears 1 ⟨none, fun _ => (0, 0)⟩ []
     (fun _ => none) (fun _ => none) [⟨1, ⟨0, 0⟩, none⟩, ⟨2, ⟨1, 1⟩, none⟩] rfl⟩

/-- **C4, counterexample.** Controller 1's marker is rendered; a recompute
invocation of controller 2 (valid bounds, one visible point) removes it:
the resulting global marker list holds only controller 2's new marker, so
another controller's markers are _not_ left unchanged. -/
theorem c4_counterexample :
    computeBody (P := LatLng) (E := ℕ) 2
        (some ⟨some (fun _ => true), fun _ => (0, 0)⟩) [⟨5, 6⟩]
        (fun _ => none) (fun _ => none) [⟨1, ⟨0, 0⟩, none⟩] =
      ([⟨2, ⟨5, 6⟩, none⟩], false) ∧
      (⟨1, ⟨0, 0⟩, none⟩ : MarkerRec ℕ) ∉ [(⟨2, ⟨5, 6⟩, none⟩ : MarkerRec ℕ)] := by
  refine ⟨by with_unfolding_all rfl, by simp⟩

/-- **C4, amended.** The marker list is module-global, not per-controller:
an executed recompute invocation (host map present) first discards the
entire current marker list — whoever created its entries — and the
resulting list holds only markers created by the invoking controller.  In
particular the result is independent of the previous marker list. -/
theorem c4_amended_markers_global {P E : Type} [HasLatLng P] (owner : ℕ)
    (m : HostMap P) (data : List P) (clusterHTML : List P → Option String)
    (parse : String → Option E) (markers markers2 : List (MarkerRec E)) :
    (∀ mk ∈ (computeBody owner (some m) data clusterHTML parse markers).1,
        mk.owner = owner) ∧
      computeBody owner (some m) data clusterHTML parse markers =
        computeBody owner (some m) data clusterHTML parse markers2 := by
  have hrender : ∀ (gs : List (GridCluster P)) (ms : List (MarkerRec E)),
      (∀ mk ∈ ms, mk.owner = owner) →
      ∀ mk ∈ (renderLoop owner parse clusterHTML gs ms).1, mk.owner = owner := by
    intro gs
    induction gs with
    | nil => intro ms hms mk hmk; exact hms mk hmk
    | cons g rest ih =>
      intro ms hms mk hmk
      rw [renderLoop] at hmk
      split at hmk
      · refine ih (ms ++ [⟨owner, g.center, _⟩]) ?_ mk hmk
        intro mk' hmk'
        rcases List.mem_append.mp hmk' with h | h
        · exact hms mk' h
        · simp at h
          subst h
          rfl
      · exact hms mk hmk
  constructor
  · rw [computeBody]
    split
    · simp
    · intro mk hmk
      exact hrender _ [] (by simp) mk hmk
  · rw [computeBody, computeBody]

/-- Witness for `c4_amended_markers_global` at a concrete state (the
quantified membership hypotheses discharged at controller 2's run over
controller 1's marker). -/
theorem c4_amended_witness :
    (∀ mk ∈ (computeBody (P := LatLng) (E := ℕ) 2
        (some ⟨some (fun _ => true), fun _ => (0, 0)⟩) [⟨5, 6⟩]
        (fun _ => none) (fun _ => none) [⟨1, ⟨0, 0⟩, none⟩]).1,
        mk.owner = 2) ∧
      computeBody (P := LatLng) (E := ℕ) 2
          (some ⟨some (fun _ => true), fun _ => (0, 0)⟩) [⟨5, 6⟩]
          (fun _ => none) (fun _ => none) [⟨1, ⟨0, 0⟩, none⟩] =
        computeBody (P := LatLng) (E := ℕ) 2
          (some ⟨some (fun _ => true), fun _ => (0, 0)⟩) [⟨5, 6⟩]
          (fun _ => none) (fun _ => none) [] :=
  c4_amended_markers_global (P := LatLng) (E := ℕ) 2
    ⟨some (fun _ => true), fun _ => (0, 0)⟩ [⟨5, 6⟩]
    (fun _ => none) (fun _ => none) [⟨1, ⟨0, 0⟩, none⟩] []

/-- **C1.** The failing input: four points at one location (all pairwise
distances 0 ≤ eps = 1), `minPts = 5`.  The true neighbour count including
the point itself is 4 < 5, so the claim (and the source's own comments —
`regionQuery` pushes `i` "to include point itself to match minPts
definition" while the main loop adds `+ 1 /*self*/` again) requires all
four points to be labelled noise and no cluster; the code instead passes
the density test (4 + 1 ≥ 5) and returns one cluster holding all four
points. -/
theorem c1_self_counted_twice :
    ((regionQuery [(0 : ℚ), 0, 0, 0] ⟨1, 5, fun x => ⟨x, x⟩, fun a b => |a - b|⟩
        0).length : ℚ) < 5 ∧
      dbscan [(0 : ℚ), 0, 0, 0] ⟨1, 5, fun x => ⟨x, x⟩, fun a b => |a - b|⟩ =
        .ok [⟨0, ⟨0, 0⟩, [0, 0, 0, 0]⟩] := by
  exact ⟨by with_unfolding_all decide, by with_unfolding_all rfl⟩

/-! ## Helper lemmas: updF and expandStep -/

theorem updF_apply {α : Type} (f : ℕ → α) (i x : ℕ) (v : α) :
    updF f i v x = if x = i then v else f x := rfl

theorem updF_self {α : Type} (f : ℕ → α) (i : ℕ) (v : α) : updF f i v i = v := by
  simp [updF]

theorem updF_ne {α : Type} (f : ℕ → α) (i j : ℕ) (v : α) (h : j ≠ i) :
    updF f i v j = f j := by
  simp [updF, h]

section ExpandStepLemmas

variable {T : Type} [Inhabited T] (pts : List T) (o : DbOptions T)
  (cid : ℕ) (st : DbState) (queue : List ℕ) (j : ℕ)

theorem expandStep_visited_eq (x : ℕ) :
    (expandStep pts o cid st queue j).1.visited x =
      if x = j then true else st.visited x := by
  unfold expandStep
  by_cases hv : st.visited j <;>
    by_cases hc : ((regionQuery pts o j).length : ℚ) + 1 ≥ o.minPts <;>
      by_cases hl : st.labels j = -1 <;>
        by_cases hxj : x = j <;>
          simp [hv, hc, hl, hxj, updF_apply]

theorem expandStep_labels_eq (x : ℕ) :
    (expandStep pts o cid st queue j).1.labels x =
      if x = j ∧ st.labels j = -1 then (cid : ℤ) else st.labels x := by
  unfold expandStep
  by_cases hv : st.visited j <;>
    by_cases hc : ((regionQuery pts o j).length : ℚ) + 1 ≥ o.minPts <;>
      by_cases hl : st.labels j = -1 <;>
        by_cases hxj : x = j <;>
          simp [hv, hc, hl, hxj, updF_apply]

theorem expandStep_core_eq (x : ℕ) :
    (expandStep pts o cid st queue j).1.core x =
      if x = j ∧ st.visited j = false ∧ codeCore pts o j then true
      else st.core x := by
  unfold expandStep codeCore
  by_cases hv : st.visited j <;>
    by_cases hc : ((regionQuery pts o j).length : ℚ) + 1 ≥ o.minPts <;>
      by_cases hl : st.labels j = -1 <;>
        by_cases hxj : x = j <;>
          simp [hv, hc, hl, hxj, updF_apply]

theorem expandStep_queue_eq :
    (expandStep pts o cid st queue j).2 =
      if st.visited j = false ∧ codeCore pts o j then
        pushNew queue (regionQuery pts o j)
      else queue := by
  unfold expandStep codeCore
  by_cases hv : st.visited j <;>
    by_cases hc : ((regionQuery pts o j).length : ℚ) + 1 ≥ o.minPts <;>
      by_cases hl : st.labels j = -1 <;>
        simp [hv, hc, hl]

end ExpandStepLemmas

/-! ## Helper lemmas: pushNew and queues -/

theorem queueIncludes_iff (q : List ℕ) (x : ℕ) :
    queueIncludes q x = true ↔ x ∈ q := by
  simp [queueIncludes, List.contains_eq_any_beq]

theorem mem_pushNew (nbs : List ℕ) :
    ∀ (queue : List ℕ) (x : ℕ), x ∈ pushNew queue nbs ↔ x ∈ queue ∨ x ∈ nbs := by
  induction nbs with
  | nil => simp [pushNew]
  | cons nb rest ih =>
    intro queue x
    show x ∈ pushNew (if queueIncludes queue nb then queue else queue ++ [nb]) rest ↔ _
    by_cases hin : queueIncludes queue nb = true
    · rw [if_pos hin, ih]
      have : nb ∈ queue := (queueIncludes_iff queue nb).mp hin
      constructor
      · rintro (h | h)
        · exact Or.inl h
        · exact Or.inr (List.mem_cons_of_mem _ h)
      · rintro (h | h)
        · exact Or.inl h
        · rcases List.mem_cons.mp h with h | h
          · exact Or.inl (h ▸ this)
          · exact Or.inr h
    · rw [if_neg hin, ih]
      simp only [List.mem_append, List.mem_singleton, List.mem_cons]
      tauto

theorem pushNew_nodup (nbs : List ℕ) :
    ∀ (queue : List ℕ), queue.Nodup → (pushNew queue nbs).Nodup := by
  induction nbs with
  | nil => exact fun queue h => h
  | cons nb rest ih =>
    intro queue hq
    show (pushNew (if queueIncludes queue nb then queue else queue ++ [nb]) rest).Nodup
    by_cases hin : queueIncludes queue nb = true
    · rw [if_pos hin]; exact ih queue hq
    · rw [if_neg hin]
      refine ih _ ?_
      have hnb : nb ∉ queue := fun h => hin ((queueIncludes_iff queue nb).mpr h)
      simpa [List.nodup_append] using ⟨hq, hnb⟩

theorem pushNew_extends (nbs : List ℕ) :
    ∀ (queue : List ℕ), ∃ t, pushNew queue nbs = queue ++ t := by
  induction nbs with
  | nil => exact fun queue => ⟨[], by simp [pushNew]⟩
  | cons nb rest ih =>
    intro queue
    show ∃ t, pushNew (if queueIncludes queue nb then queue else queue ++ [nb]) rest = _
    by_cases hin : queueIncludes queue nb = true
    · rw [if_pos hin]; exact ih queue
    · rw [if_neg hin]
      obtain ⟨t, ht⟩ := ih (queue ++ [nb])
      exact ⟨[nb] ++ t, by rw [ht, List.append_assoc]⟩

theorem getD_mem_of_lt (l : List ℕ) (k : ℕ) (h : k < l.length) :
    l.getD k 0 ∈ l := by
  rw [List.getD_eq_getElem l 0 h]
  exact List.getElem_mem h

theorem getD_append_left (l t : List ℕ) (k : ℕ) (h : k < l.length) :
    (l ++ t).getD k 0 = l.getD k 0 := by
  rw [List.getD_eq_getElem l 0 h,
    List.getD_eq_getElem (l ++ t) 0 (by simp; omega)]
  exact List.getElem_append_left h

theorem regionQuery_subset_range {T : Type} [Inhabited T] (pts : List T)
    (o : DbOptions T) (i x : ℕ) (h : x ∈ regionQuery pts o i) :
    x < pts.length := by
  have := List.mem_of_mem_filter h
  simpa using this

theorem regionQuery_nodup {T : Type} [Inhabited T] (pts : List T)
    (o : DbOptions T) (i : ℕ) : (regionQuery pts o i).Nodup :=
  (List.nodup_range _).filter _

theorem expandLoop_master {T : Type} [Inhabited T] (pts : List T)
    (o : DbOptions T) (cid : ℕ) :
    ∀ (fuel q : ℕ) (queue : List ℕ) (st st' : DbState),
      expandLoop pts o cid fuel q queue st = some st' →
      (∀ x ∈ queue, x < pts.length) →
      LabelsClean st → VisCons st → InvIn pts o st queue →
      Provenance pts o st → QueueProv pts o queue →
      (∀ k, k < q → k < queue.length → 0 ≤ st.labels (queue.getD k 0)) →
      LabelsClean st' ∧ VisCons st' ∧ InvOut pts o st' ∧ Provenance pts o st' ∧
        (∀ x, st.visited x = true → st'.visited x = true) ∧
        (∀ x ∈ queue, 0 ≤ st'.labels x) ∧
        (∀ x, 0 ≤ st.labels x → st'.labels x = st.labels x) := by
  have exit : ∀ (q : ℕ) (queue : List ℕ) (st : DbState),
      queue.length ≤ q →
      (∀ k, k < q → k < queue.length → 0 ≤ st.labels (queue.getD k 0)) →
      ∀ x ∈ queue, 0 ≤ st.labels x := by
    intro q queue st hq hpre x hx
    obtain ⟨k, hk, hget⟩ := List.mem_iff_getElem.mp hx
    have := hpre k (lt_of_lt_of_le hk hq) hk
    rwa [List.getD_eq_getElem queue 0 hk, hget] at this
  intro fuel
  induction fuel with
  | zero =>
    intro q queue st st' heq hbound hLC hVC hInv hProv hQProv hpre
    rw [expandLoop] at heq
    split at heq
    · rename_i hq
      cases heq
      have hql := exit q queue st hq hpre
      refine ⟨hLC, hVC, ?_, hProv, fun x h => h, hql, fun x _ => rfl⟩
      intro i hvisi hcore x hx
      rcases hInv i hvisi hcore x hx with h | h
      · exact h
      · exact hql x h
    · exact absurd heq (by simp)
  | succ fuel ih =>
    intro q queue st st' heq hbound hLC hVC hInv hProv hQProv hpre
    rw [expandLoop] at heq
    split at heq
    case isFalse hlt =>
      cases heq
      have hq : queue.length ≤ q := le_of_not_lt hlt
      have hql := exit q queue st hq hpre
      refine ⟨hLC, hVC, ?_, hProv, fun x h => h, hql, fun x _ => rfl⟩
      intro i hvisi hcore x hx
      rcases hInv i hvisi hcore x hx with h | h
      · exact h
      · exact hql x h
    case isTrue hlt =>
      simp only at heq
      set j := queue.getD q 0 with hj
      have hjmem : j ∈ queue := getD_mem_of_lt queue q hlt
      have hjlt : j < pts.length := hbound j hjmem
      have hvis := expandStep_visited_eq pts o cid st queue j
      have hlab := expandStep_labels_eq pts o cid st queue j
      have hque := expandStep_queue_eq pts o cid st queue j
      set p1 := expandStep pts o cid st queue j with hp1
      -- basic step facts
      have hlabmono : ∀ x, 0 ≤ st.labels x → p1.1.labels x = st.labels x := by
        intro x hx
        rw [hlab x]
        split
        · rename_i hcond
          rw [hcond.1] at hx
          rw [hcond.2] at hx
          omega
        · rfl
      have hlabj : 0 ≤ p1.1.labels j := by
        rw [hlab j]
        split
        · positivity
        · rename_i hcond
          rcases hLC j with h | h
          · exact absurd ⟨rfl, h⟩ hcond
          · exact h
      have hvismono : ∀ x, st.visited x = true → p1.1.visited x = true := by
        intro x hx
        rw [hvis x]
        split <;> simp [hx]
      have hLC1 : LabelsClean p1.1 := by
        intro x
        rw [hlab x]
        split
        · right; positivity
        · exact hLC x
      have hVC1 : VisCons p1.1 := by
        intro x hx
        rw [hlab x] at hx
        rw [hvis x]
        split
        · rfl
        · rename_i hxj
          split at hx
          · rename_i hcond
            exact absurd hcond.1 hxj
          · exact hVC x hx
      have hqext : ∃ t, p1.2 = queue ++ t := by
        rw [hque]
        split
        · exact pushNew_extends _ queue
        · exact ⟨[], by simp⟩
      have hsubq : ∀ x ∈ queue, x ∈ p1.2 := by
        obtain ⟨t, ht⟩ := hqext
        intro x hx
        rw [ht]
        exact List.mem_append_left _ hx
      have hbound1 : ∀ x ∈ p1.2, x < pts.length := by
        rw [hque]
        split
        · intro x hx
          rcases (mem_pushNew _ _ _).mp hx with h | h
          · exact hbound x h
          · exact regionQuery_subset_range pts o j x h
        · exact hbound
      have hInv1 : InvIn pts o p1.1 p1.2 := by
        intro i hvisi hcore x hx
        rw [hvis i] at hvisi
        by_cases hij : i = j
        · rw [if_pos hij] at hvisi
          subst hij
          by_cases hv : st.visited j = true
          · rcases hInv j hv hcore x hx with h | h
            · left; rw [hlabmono x h]; exact h
            · right; exact hsubq x h
          · right
            rw [hque]
            rw [if_pos ⟨by simpa using hv, hcore⟩]
            exact (mem_pushNew _ _ _).mpr (Or.inr hx)
        · rw [if_neg hij] at hvisi
          rcases hInv i hvisi hcore x hx with h | h
          · left; rw [hlabmono x h]; exact h
          · right; exact hsubq x h
      have hProv1 : Provenance pts o p1.1 := by
        intro x hx
        rw [hlab x] at hx
        split at hx
        · rename_i hcond
          rw [hcond.1]
          exact hQProv j hjmem
        · exact hProv x hx
      have hQProv1 : QueueProv pts o p1.2 := by
        rw [hque]
        split
        · rename_i hcond
          intro x hx
          rcases (mem_pushNew _ _ _).mp hx with h | h
          · exact hQProv x h
          · exact ⟨j, hjlt, hcond.2, h⟩
        · exact hQProv
      have hpre1 : ∀ k, k < q + 1 → k < p1.2.length →
          0 ≤ p1.1.labels (p1.2.getD k 0) := by
        obtain ⟨t, ht⟩ := hqext
        intro k hk hk2
        rcases Nat.lt_succ_iff_lt_or_eq.mp hk with hkq | hkq
        · have hklen : k < queue.length := lt_trans hkq hlt
          rw [ht, getD_append_left queue t k hklen]
          have := hpre k hkq hklen
          rw [hlabmono _ this]
          exact this
        · subst hkq
          rw [ht, getD_append_left queue t k hlt, ← hj]
          exact hlabj
      obtain ⟨iLC, iVC, iOut, iProv, iVis, iQl, iLmono⟩ :=
        ih (q + 1) p1.2 p1.1 st' heq hbound1 hLC1 hVC1 hInv1 hProv1 hQProv1 hpre1
      refine ⟨iLC, iVC, iOut, iProv, ?_, ?_, ?_⟩
      · intro x hx
        exact iVis x (hvismono x hx)
      · intro x hx
        exact iQl x (hsubq x hx)
      · intro x hx
        rw [iLmono x (by rw [hlabmono x hx]; exact hx), hlabmono x hx]

theorem nodup_bounded_length (queue : List ℕ) (n : ℕ) (hnd : queue.Nodup)
    (hb : ∀ x ∈ queue, x < n) : queue.length ≤ n := by
  have hcard : queue.toFinset.card = queue.length :=
    List.toFinset_card_of_nodup hnd
  have hsub : queue.toFinset ⊆ Finset.range n := by
    intro x hx
    exact Finset.mem_range.mpr (hb x (List.mem_toFinset.mp hx))
  have := Finset.card_le_card hsub
  rw [hcard, Finset.card_range] at this
  exact this

theorem expandLoop_terminates {T : Type} [Inhabited T] (pts : List T)
    (o : DbOptions T) (cid : ℕ) :
    ∀ (fuel q : ℕ) (queue : List ℕ) (st : DbState),
      queue.Nodup → (∀ x ∈ queue, x < pts.length) →
      pts.length ≤ fuel + q →
      (expandLoop pts o cid fuel q queue st).isSome = true := by
  intro fuel
  induction fuel with
  | zero =>
    intro q queue st hnd hb hf
    rw [expandLoop]
    rw [if_pos (le_trans (nodup_bounded_length queue pts.length hnd hb) (by omega))]
    rfl
  | succ fuel ih =>
    intro q queue st hnd hb hf
    rw [expandLoop]
    split
    · have hque := expandStep_queue_eq pts o cid st queue (queue.getD q 0)
      refine ih (q + 1) _ _ ?_ ?_ (by omega)
      · rw [hque]
        split
        · exact pushNew_nodup _ queue hnd
        · exact hnd
      · rw [hque]
        split
        · intro x hx
          rcases (mem_pushNew _ _ _).mp hx with h | h
          · exact hb x h
          · exact regionQuery_subset_range pts o _ x h
        · exact hb
    · rfl

theorem self_mem_regionQuery {T : Type} [Inhabited T] (pts : List T)
    (o : DbOptions T) (i : ℕ) (heps : 0 ≤ o.eps) (hi : i < pts.length) :
    i ∈ regionQuery pts o i := by
  unfold regionQuery
  refine List.mem_filter.mpr ⟨List.mem_range.mpr hi, ?_⟩
  simp [heps]

theorem expandCluster_master {T : Type} [Inhabited T] (pts : List T)
    (o : DbOptions T) (seed : ℕ) (neigh : List ℕ) (cid : ℕ) (st st' : DbState)
    (heq : expandCluster pts o seed neigh cid st = some st')
    (hneigh : neigh = regionQuery pts o seed)
    (heps : 0 ≤ o.eps) (hseedlt : seed < pts.length)
    (hseedcore : codeCore pts o seed)
    (hseedvis : st.visited seed = true)
    (hseedlab : st.labels seed = -1)
    (hLC : LabelsClean st) (hVC : VisCons st)
    (hOutE : ∀ i, st.visited i = true → codeCore pts o i → i ≠ seed →
      ∀ x ∈ regionQuery pts o i, 0 ≤ st.labels x)
    (hProv : Provenance pts o st) :
    LabelsClean st' ∧ VisCons st' ∧ InvOut pts o st' ∧ Provenance pts o st' ∧
      (∀ x, st.visited x = true → st'.visited x = true) ∧
      (∀ x, 0 ≤ st.labels x → st'.labels x = st.labels x) := by
  rw [expandCluster] at heq
  have hst1' : expandLoop pts o cid pts.length 0 neigh
      { st with
        labels := updF st.labels seed (cid : ℤ),
        core := updF st.core seed true,
        clusters := updF st.clusters cid (st.clusters cid ++ [seed]) } = some st' := heq
  set st2 : DbState := { st with
    labels := updF st.labels seed (cid : ℤ),
    core := updF st.core seed true,
    clusters := updF st.clusters cid (st.clusters cid ++ [seed]) } with hst2
  have hvis2 : ∀ x, st2.visited x = st.visited x := fun x => rfl
  have hlab2 : ∀ x, st2.labels x = if x = seed then (cid : ℤ) else st.labels x :=
    fun x => rfl
  have hb : ∀ x ∈ neigh, x < pts.length := by
    rw [hneigh]; exact fun x hx => regionQuery_subset_range pts o seed x hx
  have hLC2 : LabelsClean st2 := by
    intro x
    rw [hlab2 x]
    split
    · right; positivity
    · exact hLC x
  have hVC2 : VisCons st2 := by
    intro x hx
    rw [hlab2 x] at hx
    rw [hvis2 x]
    split at hx
    · rename_i hxs; rw [hxs]; exact hseedvis
    · exact hVC x hx
  have hlabmono2 : ∀ x, 0 ≤ st.labels x → st2.labels x = st.labels x := by
    intro x hx
    rw [hlab2 x]
    split
    · rename_i hxs
      rw [hxs] at hx
      rw [hseedlab] at hx
      omega
    · rfl
  have hInv2 : InvIn pts o st2 neigh := by
    intro i hvisi hcore x hx
    by_cases his : i = seed
    · subst his
      right
      rw [hneigh]
      exact hx
    · rw [hvis2 i] at hvisi
      have := hOutE i hvisi hcore his x hx
      left
      rw [hlabmono2 x this]
      exact this
  have hProv2 : Provenance pts o st2 := by
    intro x hx
    rw [hlab2 x] at hx
    split at hx
    · rename_i hxs
      rw [hxs]
      exact ⟨seed, hseedlt, hseedcore, self_mem_regionQuery pts o seed heps hseedlt⟩
    · exact hProv x hx
  have hQProv2 : QueueProv pts o neigh := by
    intro x hx
    rw [hneigh] at hx
    exact ⟨seed, hseedlt, hseedcore, hx⟩
  obtain ⟨iLC, iVC, iOut, iProv, iVis, _, iLmono⟩ :=
    expandLoop_master pts o cid pts.length 0 neigh st2 st' hst1' hb hLC2 hVC2
      hInv2 hProv2 hQProv2 (by omega)
  refine ⟨iLC, iVC, iOut, iProv, ?_, ?_⟩
  · intro x hx
    exact iVis x ((hvis2 x).symm ▸ hx)
  · intro x hx
    rw [iLmono x (by rw [hlabmono2 x hx]; exact hx), hlabmono2 x hx]

theorem expandCluster_terminates {T : Type} [Inhabited T] (pts : List T)
    (o : DbOptions T) (seed : ℕ) (cid : ℕ) (st : DbState) :
    (expandCluster pts o seed (regionQuery pts o seed) cid st).isSome = true := by
  rw [expandCluster]
  exact expandLoop_terminates pts o cid pts.length 0 _ _
    (regionQuery_nodup pts o seed)
    (fun x hx => regionQuery_subset_range pts o seed x hx) (by omega)


theorem bundle_noise {T : Type} [Inhabited T] (pts : List T)
    (o : DbOptions T) (st : DbState) (i : ℕ)
    (hvF : st.visited i = false) (hlabi : st.labels i = -1)
    (hnc : ¬ codeCore pts o i)
    (hLC : LabelsClean st) (hVC : VisCons st)
    (hOut : InvOut pts o st) (hProv : Provenance pts o st) :
    LabelsClean ⟨updF st.visited i true, updF st.labels i (-1), st.core,
        st.clusters⟩ ∧
      VisCons ⟨updF st.visited i true, updF st.labels i (-1), st.core,
        st.clusters⟩ ∧
      InvOut pts o ⟨updF st.visited i true, updF st.labels i (-1), st.core,
        st.clusters⟩ ∧
      Provenance pts o ⟨updF st.visited i true, updF st.labels i (-1), st.core,
        st.clusters⟩ := by
  have hlabeq : ∀ x, updF st.labels i (-1) x = st.labels x := by
    intro x
    rw [updF_apply]
    split
    · rename_i hxi; rw [hxi, hlabi]
    · rfl
  refine ⟨?_, ?_, ?_, ?_⟩
  · intro x
    show updF st.labels i (-1) x = -1 ∨ 0 ≤ updF st.labels i (-1) x
    rw [hlabeq]
    exact hLC x
  · intro x hx
    show updF st.visited i true x = true
    have hx2 : 0 ≤ updF st.labels i (-1) x := hx
    rw [hlabeq] at hx2
    rw [updF_apply]
    split
    · rfl
    · exact hVC x hx2
  · intro i' hvisi' hcore x hx
    show 0 ≤ updF st.labels i (-1) x
    rw [hlabeq]
    have hvisi'2 : updF st.visited i true i' = true := hvisi'
    rw [updF_apply] at hvisi'2
    by_cases hii : i' = i
    · rw [hii] at hcore
      exact absurd hcore hnc
    · rw [if_neg hii] at hvisi'2
      exact hOut i' hvisi'2 hcore x hx
  · intro x hx
    show ∃ c, _
    have hx2 : 0 ≤ updF st.labels i (-1) x := hx
    rw [hlabeq] at hx2
    exact hProv x hx2

theorem mainStep_master {T : Type} [Inhabited T] (pts : List T)
    (o : DbOptions T) (i : ℕ) (acc acc' : DbState × ℕ)
    (hstep : mainStep pts o acc i = some acc')
    (heps : 0 ≤ o.eps) (hi : i < pts.length)
    (hLC : LabelsClean acc.1) (hVC : VisCons acc.1)
    (hOut : InvOut pts o acc.1) (hProv : Provenance pts o acc.1) :
    LabelsClean acc'.1 ∧ VisCons acc'.1 ∧ InvOut pts o acc'.1 ∧
      Provenance pts o acc'.1 ∧
      (∀ x, acc.1.visited x = true → acc'.1.visited x = true) ∧
      acc'.1.visited i = true := by
  rw [mainStep] at hstep
  split at hstep
  · cases hstep
    rename_i hvisi
    exact ⟨hLC, hVC, hOut, hProv, fun x h => h, hvisi⟩
  · rename_i hvisF
    have hvF : acc.1.visited i = false := by
      revert hvisF
      cases acc.1.visited i <;> simp
    have hlabi : acc.1.labels i = -1 := by
      rcases hLC i with h | h
      · exact h
      · exact absurd (hVC i h) (by rw [hvF]; simp)
    dsimp only at hstep
    split at hstep
    · rename_i hden
      cases hstep
      have hnc : ¬ codeCore pts o i := by
        unfold codeCore
        exact not_le.mpr hden
      obtain ⟨bLC, bVC, bOut, bProv⟩ :=
        bundle_noise pts o acc.1 i hvF hlabi hnc hLC hVC hOut hProv
      refine ⟨bLC, bVC, bOut, bProv, ?_, ?_⟩
      · intro x hx
        show updF acc.1.visited i true x = true
        rw [updF_apply]
        split
        · rfl
        · exact hx
      · show updF acc.1.visited i true i = true
        rw [updF_self]
    · rename_i hden
      split at hstep
      · rename_i st2 heq2
        cases hstep
        have hcore : codeCore pts o i := by
          unfold codeCore
          exact not_lt.mp hden
        obtain ⟨eLC, eVC, eOut, eProv, eVis, _⟩ :=
          expandCluster_master pts o i (regionQuery pts o i) acc.2
            ⟨updF acc.1.visited i true, acc.1.labels, acc.1.core,
              updF acc.1.clusters acc.2 []⟩
            st2 heq2 rfl heps hi hcore (updF_self _ _ _) hlabi
            (fun x => hLC x)
            (by
              intro x hx
              show updF acc.1.visited i true x = true
              rw [updF_apply]
              split
              · rfl
              · exact hVC x hx)
            (by
              intro i' hvisi' hcore' hii' x hx
              have hvisi'2 : updF acc.1.visited i true i' = true := hvisi'
              rw [updF_ne _ _ _ _ hii'] at hvisi'2
              exact hOut i' hvisi'2 hcore' x hx)
            (fun x hx => hProv x hx)
        refine ⟨eLC, eVC, eOut, eProv, ?_, ?_⟩
        · intro x hx
          refine eVis x ?_
          show updF acc.1.visited i true x = true
          rw [updF_apply]
          split
          · rfl
          · exact hx
        · exact eVis i (updF_self _ _ _)
      · exact absurd hstep (by simp)

theorem mainStep_isSome {T : Type} [Inhabited T] (pts : List T)
    (o : DbOptions T) (acc : DbState × ℕ) (i : ℕ) :
    (mainStep pts o acc i).isSome = true := by
  rw [mainStep]
  split
  · rfl
  · dsimp only
    split
    · rfl
    · obtain ⟨st2, heq2⟩ := Option.isSome_iff_exists.mp
        (expandCluster_terminates pts o i acc.2
          ⟨updF acc.1.visited i true, acc.1.labels, acc.1.core,
            updF acc.1.clusters acc.2 []⟩)
      rw [heq2]
      rfl

theorem mainLoop_master {T : Type} [Inhabited T] (pts : List T)
    (o : DbOptions T) (heps : 0 ≤ o.eps) :
    ∀ (idxs : List ℕ) (acc acc' : DbState × ℕ),
      mainLoop pts o idxs acc = some acc' →
      (∀ i ∈ idxs, i < pts.length) →
      LabelsClean acc.1 → VisCons acc.1 → InvOut pts o acc.1 →
      Provenance pts o acc.1 →
      LabelsClean acc'.1 ∧ VisCons acc'.1 ∧ InvOut pts o acc'.1 ∧
        Provenance pts o acc'.1 ∧
        (∀ x, acc.1.visited x = true → acc'.1.visited x = true) ∧
        (∀ i ∈ idxs, acc'.1.visited i = true) := by
  intro idxs
  induction idxs with
  | nil =>
    intro acc acc' heq _ hLC hVC hOut hProv
    cases heq
    exact ⟨hLC, hVC, hOut, hProv, fun x h => h, by simp⟩
  | cons i rest ih =>
    intro acc acc' heq hbound hLC hVC hOut hProv
    rw [mainLoop] at heq
    split at heq
    · rename_i acc1 hstep
      obtain ⟨sLC, sVC, sOut, sProv, sVis, sVisi⟩ :=
        mainStep_master pts o i acc acc1 hstep heps
          (hbound i (by simp)) hLC hVC hOut hProv
      obtain ⟨rLC, rVC, rOut, rProv, rVis, rVisAll⟩ :=
        ih acc1 acc' heq (fun x hx => hbound x (List.mem_cons_of_mem _ hx))
          sLC sVC sOut sProv
      refine ⟨rLC, rVC, rOut, rProv, ?_, ?_⟩
      · intro x hx
        exact rVis x (sVis x hx)
      · intro x hx
        rcases List.mem_cons.mp hx with h | h
        · rw [h]
          exact rVis i sVisi
        · exact rVisAll x h
    · exact absurd heq (by simp)

theorem mainLoop_isSome {T : Type} [Inhabited T] (pts : List T)
    (o : DbOptions T) :
    ∀ (idxs : List ℕ) (acc : DbState × ℕ),
      (mainLoop pts o idxs acc).isSome = true := by
  intro idxs
  induction idxs with
  | nil => intro acc; rfl
  | cons i rest ih =>
    intro acc
    rw [mainLoop]
    split
    · rename_i acc1 _
      exact ih acc1
    · rename_i hnone
      exact absurd hnone (by
        have := mainStep_isSome pts o acc i
        cases h : mainStep pts o acc i
        · rw [h] at this; simp at this
        · simp [h])

theorem dbscanState_isSome {T : Type} [Inhabited T] (pts : List T)
    (o : DbOptions T) : (dbscanState pts o).isSome = true :=
  mainLoop_isSome pts o (List.range pts.length) (initDbState, 0)

theorem dbscanState_sound {T : Type} [Inhabited T] (pts : List T)
    (o : DbOptions T) (heps : 0 ≤ o.eps) (acc : DbState × ℕ)
    (h : dbscanState pts o = some acc) :
    LabelsClean acc.1 ∧ VisCons acc.1 ∧ InvOut pts o acc.1 ∧
      Provenance pts o acc.1 ∧ ∀ i, i < pts.length → acc.1.visited i = true := by
  have hinit : LabelsClean initDbState ∧ VisCons initDbState ∧
      InvOut pts o initDbState ∧ Provenance pts o initDbState := by
    refine ⟨fun x => Or.inl rfl, fun x hx => ?_, fun i hv => ?_, fun x hx => ?_⟩
    · exact absurd hx (by norm_num [initDbState])
    · exact absurd hv (by simp [initDbState])
    · exact absurd hx (by norm_num [initDbState])
  obtain ⟨rLC, rVC, rOut, rProv, _, rVisAll⟩ :=
    mainLoop_master pts o heps (List.range pts.length) (initDbState, 0) acc h
      (fun i hi => List.mem_range.mp hi) hinit.1 hinit.2.1 hinit.2.2.1 hinit.2.2.2
  exact ⟨rLC, rVC, rOut, rProv, fun i hi => rVisAll i (List.mem_range.mpr hi)⟩

theorem regionQuery_mono {T : Type} [Inhabited T] (pts : List T)
    (o : DbOptions T) (eps2 : ℚ) (heps : 0 ≤ o.eps) (hle : o.eps ≤ eps2)
    (i : ℕ) :
    (regionQuery pts o i).Sublist (regionQuery pts { o with eps := eps2 } i) := by
  unfold regionQuery
  refine List.monotone_filter_right _ ?_
  intro j hj
  dsimp only at hj ⊢
  by_cases hij : i = j
  · rw [if_pos hij] at hj ⊢
    simp only [decide_eq_true_eq] at hj ⊢
    linarith
  · rw [if_neg hij] at hj ⊢
    simp only [decide_eq_true_eq] at hj ⊢
    linarith

theorem codeCore_mono {T : Type} [Inhabited T] (pts : List T)
    (o : DbOptions T) (eps2 : ℚ) (heps : 0 ≤ o.eps) (hle : o.eps ≤ eps2)
    (c : ℕ) (h : codeCore pts o c) : codeCore pts { o with eps := eps2 } c := by
  unfold codeCore at h ⊢
  have hlen : (regionQuery pts o c).length ≤
      (regionQuery pts { o with eps := eps2 } c).length :=
    (regionQuery_mono pts o eps2 heps hle c).length_le
  have : ((regionQuery pts o c).length : ℚ) ≤
      ((regionQuery pts { o with eps := eps2 } c).length : ℚ) := by
    exact_mod_cast hlen
  calc o.minPts ≤ ((regionQuery pts o c).length : ℚ) + 1 := h
    _ ≤ _ := by linarith

/-! ## Helper lemmas: groupByCluster -/

theorem count_flatten_eq {T : Type} [DecidableEq T] (L : List (List T)) (x : T) :
    L.flatten.count x = (L.map (fun g => g.count x)).sum := by
  induction L with
  | nil => simp
  | cons g rest ih => simp [List.count_append, ih]

theorem countOcc_flat {K T : Type} [DecidableEq T] (m : List (K × List T)) (x : T) :
    countOcc (m.map Prod.snd) x = (flatPoints m).count x := by
  rw [countOcc, flatPoints, count_flatten_eq, List.map_map]

theorem insertSorted_perm {T : Type} (e : ℤ × List T) (l : List (ℤ × List T)) :
    (insertSorted e l).Perm (e :: l) := by
  induction l with
  | nil => exact List.Perm.refl _
  | cons f rest ih =>
    rw [insertSorted]
    split
    · exact List.Perm.refl _
    · exact (List.Perm.cons f ih).trans (List.Perm.swap e f rest)

theorem sortByKey_perm {T : Type} (l : List (ℤ × List T)) :
    (sortByKey l).Perm l := by
  induction l with
  | nil => exact List.Perm.refl _
  | cons e rest ih =>
    exact (insertSorted_perm e (sortByKey rest)).trans (List.Perm.cons e ih)

theorem countOcc_sortByKey {T : Type} [DecidableEq T] (m : List (ℤ × List T))
    (x : T) :
    countOcc ((sortByKey m).map Prod.snd) x = countOcc (m.map Prod.snd) x := by
  rw [countOcc, countOcc]
  have h1 : ((sortByKey m).map Prod.snd).Perm (m.map Prod.snd) :=
    (sortByKey_perm m).map _
  exact (h1.map (fun g => g.count x)).sum_eq

theorem countOcc_pos_mem {T : Type} [DecidableEq T] (G : List (List T)) (x : T)
    (h : 0 < countOcc G x) : ∃ g ∈ G, x ∈ g := by
  induction G with
  | nil => simp [countOcc] at h
  | cons g rest ih =>
    rw [countOcc, List.map_cons, List.sum_cons] at h
    by_cases hg : 0 < g.count x
    · exact ⟨g, by simp, List.count_pos_iff.mp hg⟩
    · have : 0 < countOcc rest x := by
        rw [countOcc]; omega
      obtain ⟨g', hg', hx⟩ := ih this
      exact ⟨g', List.mem_cons_of_mem _ hg', hx⟩

theorem getD_range (n i : ℕ) (h : i < n) : (List.range n).getD i 0 = i := by
  simp [List.getD, h]

theorem gbcFold_count (n : ℕ) (labels : ℕ → ℤ) (x : ℕ) :
    ∀ (idxs : List ℕ) (acc : List (ℤ × List ℕ)),
      (∀ j ∈ idxs, j < n) →
      (flatPoints (idxs.foldl
          (fun m j => if labels j < 0 then m
            else upsertA m (labels j) ((List.range n).getD j 0)) acc)).count x =
        (flatPoints acc).count x +
          (if 0 ≤ labels x then idxs.count x else 0) := by
  intro idxs
  induction idxs with
  | nil => intro acc _; simp
  | cons j rest ih =>
    intro acc hb
    rw [List.foldl_cons]
    by_cases hl : labels j < 0
    · rw [if_pos hl, ih acc (fun y hy => hb y (List.mem_cons_of_mem _ hy))]
      by_cases hxx : 0 ≤ labels x
      · have hxj : ¬ x = j := by
          intro h
          rw [h] at hxx
          omega
        have hjx : ¬ j = x := fun h => hxj h.symm
        simp [hxx, List.count_cons, hxj, hjx]
      · simp [hxx]
    · rw [if_neg hl,
        ih (upsertA acc (labels j) ((List.range n).getD j 0))
          (fun y hy => hb y (List.mem_cons_of_mem _ hy)),
        flatPoints_upsertA,
        getD_range n j (hb j (by simp))]
      by_cases hxj : x = j
      · subst hxj
        have h0 : 0 ≤ labels x := not_lt.mp hl
        simp [List.count_cons, h0]
        omega
      · have hjx : ¬ j = x := fun h => hxj h.symm
        simp [List.count_cons, hxj, hjx]

theorem count_range_eq (n x : ℕ) :
    (List.range n).count x = if x < n then 1 else 0 := by
  by_cases h : x < n
  · rw [if_pos h]
    exact List.count_eq_one_of_mem (List.nodup_range n) (List.mem_range.mpr h)
  · rw [if_neg h]
    exact List.count_eq_zero_of_not_mem (fun hc => h (List.mem_range.mp hc))

theorem countOcc_groupByCluster_range (n : ℕ) (labels : ℕ → ℤ) (x : ℕ) :
    countOcc (groupByCluster (List.range n) labels) x =
      if 0 ≤ labels x ∧ x < n then 1 else 0 := by
  rw [groupByCluster, countOcc_sortByKey, countOcc_flat, gbcEntries]
  have hlen : (List.range n).length = n := List.length_range n
  rw [hlen]
  have := gbcFold_count n labels x (List.range n) []
    (fun j hj => List.mem_range.mp hj)
  have hconv : ∀ (m : List (ℤ × List ℕ)) (j : ℕ),
      (if labels j < 0 then m
        else upsertA m (labels j) ((List.range n).getD j 0)) =
      (if labels j < 0 then m
        else upsertA m (labels j) ((List.range n).getD j default)) := by
    intro m j; rfl
  rw [show (fun (m : List (ℤ × List ℕ)) (i : ℕ) => if labels i < 0 then m
      else upsertA m (labels i) ((List.range n).getD i default)) =
    (fun (m : List (ℤ × List ℕ)) (j : ℕ) => if labels j < 0 then m
      else upsertA m (labels j) ((List.range n).getD j 0)) from rfl]
  rw [this]
  rw [count_range_eq]
  simp only [flatPoints_nil, List.count_nil, Nat.zero_add]
  by_cases h1 : 0 ≤ labels x <;> by_cases h2 : x < n <;> simp [h1, h2]

theorem upsertA_map {K A B : Type} [DecidableEq K] (f : A → B) :
    ∀ (m : List (K × List A)) (k : K) (v : A),
      upsertA (m.map (fun kv => (kv.1, kv.2.map f))) k (f v) =
        (upsertA m k v).map (fun kv => (kv.1, kv.2.map f)) := by
  intro m
  induction m with
  | nil => intro k v; rfl
  | cons hd tl ih =>
    intro k v
    obtain ⟨k', vs⟩ := hd
    by_cases hk : k' = k
    · simp [upsertA, hk]
    · simp [upsertA, hk, ih]

theorem insertSorted_map {A B : Type} (f : A → B) (e : ℤ × List A) :
    ∀ (l : List (ℤ × List A)),
      insertSorted (e.1, e.2.map f) (l.map (fun kv => (kv.1, kv.2.map f))) =
        (insertSorted e l).map (fun kv => (kv.1, kv.2.map f)) := by
  intro l
  induction l with
  | nil => rfl
  | cons g rest ih =>
    rw [List.map_cons, insertSorted, insertSorted]
    by_cases hlt : e.1 < g.1
    · rw [if_pos hlt, if_pos hlt, List.map_cons, List.map_cons]
    · rw [if_neg hlt, if_neg hlt, List.map_cons, ih]

theorem sortByKey_map {A B : Type} (f : A → B) :
    ∀ (l : List (ℤ × List A)),
      sortByKey (l.map (fun kv => (kv.1, kv.2.map f))) =
        (sortByKey l).map (fun kv => (kv.1, kv.2.map f)) := by
  intro l
  induction l with
  | nil => rfl
  | cons e rest ih =>
    rw [List.map_cons, sortByKey, sortByKey, ih]
    exact insertSorted_map f e (sortByKey rest)

theorem gbcEntries_natural {T : Type} [Inhabited T] (pts : List T)
    (labels : ℕ → ℤ) :
    gbcEntries pts labels =
      (gbcEntries (List.range pts.length) labels).map
        (fun kv => (kv.1, kv.2.map (fun j => pts.getD j default))) := by
  rw [gbcEntries, gbcEntries, List.length_range]
  have main : ∀ (idxs : List ℕ) (acc : List (ℤ × List ℕ)),
      (∀ j ∈ idxs, j < pts.length) →
      idxs.foldl
          (fun m i => if labels i < 0 then m
            else upsertA m (labels i) (pts.getD i default))
          (acc.map (fun kv => (kv.1, kv.2.map (fun j => pts.getD j default)))) =
        (idxs.foldl
          (fun m i => if labels i < 0 then m
            else upsertA m (labels i) ((List.range pts.length).getD i default))
          acc).map (fun kv => (kv.1, kv.2.map (fun j => pts.getD j default))) := by
    intro idxs
    induction idxs with
    | nil => intro acc _; rfl
    | cons j rest ih =>
      intro acc hb
      rw [List.foldl_cons, List.foldl_cons]
      by_cases hl : labels j < 0
      · rw [if_pos hl, if_pos hl]
        exact ih acc (fun y hy => hb y (List.mem_cons_of_mem _ hy))
      · rw [if_neg hl, if_neg hl]
        have hgd : (List.range pts.length).getD j default = j :=
          getD_range pts.length j (hb j (by simp))
        rw [hgd]
        have hmap := upsertA_map (fun y => pts.getD y default) acc (labels j) j
        rw [hmap]
        exact ih _ (fun y hy => hb y (List.mem_cons_of_mem _ hy))
  have := main (List.range pts.length) [] (fun j hj => List.mem_range.mp hj)
  simpa using this

theorem groupByCluster_natural {T : Type} [Inhabited T] (pts : List T)
    (labels : ℕ → ℤ) :
    groupByCluster pts labels =
      (groupByCluster (List.range pts.length) labels).map
        (List.map (fun j => pts.getD j default)) := by
  rw [groupByCluster, groupByCluster, gbcEntries_natural, sortByKey_map,
    List.map_map, List.map_map]
  rfl

/-- **C6.** For every input and valid dbscan options, each input point (by
its index) ends in exactly one of two final states: labelled noise and in
no returned group (it occurs 0 times over all groups), or labelled with a
cluster id and occurring exactly once over all groups — hence in exactly
one cluster and only once there.  The returned value-level clusters are
exactly those index groups mapped through the input list. -/
theorem c6_point_exclusivity {T : Type} [Inhabited T] (pts : List T)
    (o : DbOptions T) (h1 : 0 < o.eps) (h2 : 1 ≤ o.minPts) :
    ∀ acc ∈ dbscanState pts o, ∀ i, i < pts.length →
      ((acc.1.labels i < 0 ∧
          countOcc (groupByCluster (List.range pts.length) acc.1.labels) i = 0) ∨
        (0 ≤ acc.1.labels i ∧
          countOcc (groupByCluster (List.range pts.length) acc.1.labels) i = 1)) ∧
      groupByCluster pts acc.1.labels =
        (groupByCluster (List.range pts.length) acc.1.labels).map
          (List.map (fun j => pts.getD j default)) := by
  intro acc _ i hi
  constructor
  · rw [countOcc_groupByCluster_range]
    by_cases hl : 0 ≤ acc.1.labels i
    · right
      exact ⟨hl, if_pos ⟨hl, hi⟩⟩
    · left
      refine ⟨by omega, ?_⟩
      rw [if_neg (fun hc => hl hc.1)]
  · exact groupByCluster_natural pts acc.1.labels

/-- Witness for `c6_point_exclusivity` at a concrete run. -/
theorem c6_point_exclusivity_witness :
    ((0 : ℚ) < 1) ∧ ((1 : ℚ) ≤ 5) ∧
      ∃ acc, dbscanState [(0 : ℚ), 0, 0, 0]
          ⟨1, 5, fun x => ⟨x, x⟩, fun a b => |a - b|⟩ = some acc ∧
        0 ≤ acc.1.labels 0 ∧
        countOcc (groupByCluster (List.range 4) acc.1.labels) 0 = 1 := by
  have hs : (dbscanState [(0 : ℚ), 0, 0, 0]
      ⟨1, 5, fun x => ⟨x, x⟩, fun a b => |a - b|⟩).isSome = true := by
    with_unfolding_all rfl
  have hlabmap : (dbscanState [(0 : ℚ), 0, 0, 0]
      ⟨1, 5, fun x => ⟨x, x⟩, fun a b => |a - b|⟩).map
        (fun acc => acc.1.labels 0) = some 0 := by
    with_unfolding_all rfl
  obtain ⟨acc, hacc⟩ := Option.isSome_iff_exists.mp hs
  have hlab : acc.1.labels 0 = 0 := by
    rw [hacc] at hlabmap
    simpa using hlabmap
  have h := c6_point_exclusivity [(0 : ℚ), 0, 0, 0]
    ⟨1, 5, fun x => ⟨x, x⟩, fun a b => |a - b|⟩ (by norm_num) (by norm_num)
    acc (by rw [hacc]; rfl) 0 (by norm_num)
  rcases h.1 with hc | hc
  · rw [hlab] at hc
    exact absurd hc.1 (by omega)
  · exact ⟨by norm_num, by norm_num, acc, hacc, hc.1, hc.2⟩

/-- **C7, counterexample.** Input (1-D points, absolute-value distance,
`eps = 1`, `minPts = 5`): `[-1, -1, -1, -1, 0, 1, 2, 3, 3, 3, 3]`.  The
point at coordinate 2 (index 6) is core in the claim's sense (its
neighbourhood `{1, 2, 3, 3, 3, 3}` has 6 ≥ minPts members) and the point at
coordinate 1 (index 5) is within eps of it; yet the run puts coordinate 1
in cluster 0 (it was absorbed earlier as a border point of the left
cluster) and coordinate 2 in cluster 1 — a point within eps of a core point
that is *not* in that core point's cluster. -/
theorem c7_counterexample :
    (5 : ℚ) ≤ ((regionQuery [(-1 : ℚ), -1, -1, -1, 0, 1, 2, 3, 3, 3, 3]
        ⟨1, 5, fun x => ⟨x, x⟩, fun a b => |a - b|⟩ 6).length : ℚ) ∧
      |([(-1 : ℚ), -1, -1, -1, 0, 1, 2, 3, 3, 3, 3].getD 6 default) -
          ([(-1 : ℚ), -1, -1, -1, 0, 1, 2, 3, 3, 3, 3].getD 5 default)| ≤ 1 ∧
      dbscan [(-1 : ℚ), -1, -1, -1, 0, 1, 2, 3, 3, 3, 3]
          ⟨1, 5, fun x => ⟨x, x⟩, fun a b => |a - b|⟩ =
        .ok [⟨0, ⟨-1/2, -1/2⟩, [-1, -1, -1, -1, 0, 1]⟩,
             ⟨1, ⟨14/5, 14/5⟩, [2, 3, 3, 3, 3]⟩] ∧
      (1 : ℚ) ∈ [(-1 : ℚ), -1, -1, -1, 0, 1] ∧
      (1 : ℚ) ∉ [(2 : ℚ), 3, 3, 3, 3] ∧
      (2 : ℚ) ∈ [(2 : ℚ), 3, 3, 3, 3] ∧
      (2 : ℚ) ∉ [(-1 : ℚ), -1, -1, -1, 0, 1] := by
  refine ⟨by with_unfolding_all decide, by with_unfolding_all decide,
    by with_unfolding_all rfl, by norm_num, by with_unfolding_all decide,
    by norm_num, by with_unfolding_all decide⟩

/-- **C7, amended.** If point `i` is core in the claim's sense (its
neighbourhood within eps, the point itself included, has at least `minPts`
members), then every point within eps of `i` is *not noise*: it carries a
cluster label and lies in some returned group — though possibly a different
cluster than `i`'s, if an earlier expansion absorbed it first. -/
theorem c7_amended_core_neighbors_not_noise {T : Type} [Inhabited T]
    (pts : List T) (o : DbOptions T) (h1 : 0 < o.eps) (h2 : 1 ≤ o.minPts)
    (i j : ℕ) (hi : i < pts.length)
    (hcore : o.minPts ≤ ((regionQuery pts o i).length : ℚ))
    (hj : j ∈ regionQuery pts o i) :
    ∀ acc ∈ dbscanState pts o, 0 ≤ acc.1.labels j ∧
      ∃ g ∈ groupByCluster (List.range pts.length) acc.1.labels, j ∈ g := by
  intro acc hacc
  have hccore : codeCore pts o i := by
    unfold codeCore
    linarith
  obtain ⟨_, _, hOut, _, hvisall⟩ :=
    dbscanState_sound pts o (le_of_lt h1) acc (Option.mem_def.mp hacc)
  have hlab : 0 ≤ acc.1.labels j := hOut i (hvisall i hi) hccore j hj
  refine ⟨hlab, countOcc_pos_mem _ _ ?_⟩
  rw [countOcc_groupByCluster_range,
    if_pos ⟨hlab, regionQuery_subset_range pts o i j hj⟩]
  norm_num

/-- Witness for `c7_amended_core_neighbors_not_noise` at the
counterexample's input (core index 6, neighbour index 5). -/
theorem c7_amended_witness :
    ∃ acc, dbscanState [(-1 : ℚ), -1, -1, -1, 0, 1, 2, 3, 3, 3, 3]
        ⟨1, 5, fun x => ⟨x, x⟩, fun a b => |a - b|⟩ = some acc ∧
      0 ≤ acc.1.labels 5 ∧
      ∃ g ∈ groupByCluster (List.range 11) acc.1.labels, 5 ∈ g := by
  have hs : (dbscanState [(-1 : ℚ), -1, -1, -1, 0, 1, 2, 3, 3, 3, 3]
      ⟨1, 5, fun x => ⟨x, x⟩, fun a b => |a - b|⟩).isSome = true := by
    with_unfolding_all rfl
  obtain ⟨acc, hacc⟩ := Option.isSome_iff_exists.mp hs
  have h := c7_amended_core_neighbors_not_noise
    [(-1 : ℚ), -1, -1, -1, 0, 1, 2, 3, 3, 3, 3]
    ⟨1, 5, fun x => ⟨x, x⟩, fun a b => |a - b|⟩
    (by norm_num) (by norm_num) 6 5 (by norm_num)
    (by with_unfolding_all decide) (by with_unfolding_all decide)
    acc (by rw [hacc]; rfl)
  exact ⟨acc, hacc, h⟩

/-- **C8, counterexample.** Input (1-D points, absolute-value distance,
`minPts = 5`): `[-5, -5, -5, -3, 0, 2, 4, 4, 4]`.  With `eps = 2` the
points at coordinates 0 and 2 share cluster 1; with the larger `eps = 3`
the border point at coordinate 0 is absorbed by the earlier (left) cluster
instead, so no returned cluster contains both — increasing eps split this
pair across clusters. -/
theorem c8_counterexample :
    ((2 : ℚ) ≤ 3) ∧
      dbscan [(-5 : ℚ), -5, -5, -3, 0, 2, 4, 4, 4]
          ⟨2, 5, fun x => ⟨x, x⟩, fun a b => |a - b|⟩ =
        .ok [⟨0, ⟨-9/2, -9/2⟩, [-5, -5, -5, -3]⟩,
             ⟨1, ⟨14/5, 14/5⟩, [0, 2, 4, 4, 4]⟩] ∧
      dbscan [(-5 : ℚ), -5, -5, -3, 0, 2, 4, 4, 4]
          ⟨3, 5, fun x => ⟨x, x⟩, fun a b => |a - b|⟩ =
        .ok [⟨0, ⟨-18/5, -18/5⟩, [-5, -5, -5, -3, 0]⟩,
             ⟨1, ⟨7/2, 7/2⟩, [2, 4, 4, 4]⟩] ∧
      ((0 : ℚ) ∈ [(0 : ℚ), 2, 4, 4, 4] ∧ (2 : ℚ) ∈ [(0 : ℚ), 2, 4, 4, 4]) ∧
      ((0 : ℚ) ∉ [(2 : ℚ), 4, 4, 4] ∧ (2 : ℚ) ∉ [(-5 : ℚ), -5, -5, -3, 0]) := by
  refine ⟨by norm_num, by with_unfolding_all rfl, by with_unfolding_all rfl,
    ⟨by norm_num, by norm_num⟩, ⟨by with_unfolding_all decide,
      by with_unfolding_all decide⟩⟩

/-- **C8, amended.** Holding `minPts` and the distance fixed and increasing
`eps` never turns a clustered point into noise: any two points sharing a
cluster at the smaller eps are still cluster members (possibly of different
clusters) at the larger eps. -/
theorem c8_amended_membership_monotone {T : Type} [Inhabited T]
    (pts : List T) (o : DbOptions T) (eps2 : ℚ) (h1 : 0 < o.eps)
    (hle : o.eps ≤ eps2) (h2 : 1 ≤ o.minPts) (x y : ℕ) :
    ∀ acc1 ∈ dbscanState pts o,
      ∀ acc2 ∈ dbscanState pts { o with eps := eps2 },
      0 ≤ acc1.1.labels x → acc1.1.labels x = acc1.1.labels y →
      0 ≤ acc2.1.labels x ∧ 0 ≤ acc2.1.labels y := by
  intro acc1 hacc1 acc2 hacc2 hx hxy
  obtain ⟨_, _, _, hProv1, _⟩ :=
    dbscanState_sound pts o (le_of_lt h1) acc1 (Option.mem_def.mp hacc1)
  obtain ⟨_, _, hOut2, _, hvisall2⟩ :=
    dbscanState_sound pts { o with eps := eps2 } (le_trans (le_of_lt h1) hle)
      acc2 (Option.mem_def.mp hacc2)
  have key : ∀ z, 0 ≤ acc1.1.labels z → 0 ≤ acc2.1.labels z := by
    intro z hz
    obtain ⟨c, hclt, hccore, hzN⟩ := hProv1 z hz
    have hccore2 : codeCore pts { o with eps := eps2 } c :=
      codeCore_mono pts o eps2 (le_of_lt h1) hle c hccore
    have hzN2 : z ∈ regionQuery pts { o with eps := eps2 } c :=
      (regionQuery_mono pts o eps2 (le_of_lt h1) hle c).subset hzN
    exact hOut2 c (hvisall2 c hclt) hccore2 z hzN2
  exact ⟨key x hx, key y (by rw [← hxy]; exact hx)⟩

/-- Witness for `c8_amended_membership_monotone` at the counterexample's
input (indices 4 and 5, eps 2 then 3). -/
theorem c8_amended_witness :
    ∃ acc1, dbscanState [(-5 : ℚ), -5, -5, -3, 0, 2, 4, 4, 4]
        ⟨2, 5, fun x => ⟨x, x⟩, fun a b => |a - b|⟩ = some acc1 ∧
      ∃ acc2, dbscanState [(-5 : ℚ), -5, -5, -3, 0, 2, 4, 4, 4]
          ⟨3, 5, fun x => ⟨x, x⟩, fun a b => |a - b|⟩ = some acc2 ∧
        0 ≤ acc2.1.labels 4 ∧ 0 ≤ acc2.1.labels 5 := by
  have hs1 : (dbscanState [(-5 : ℚ), -5, -5, -3, 0, 2, 4, 4, 4]
      ⟨2, 5, fun x => ⟨x, x⟩, fun a b => |a - b|⟩).isSome = true := by
    with_unfolding_all rfl
  have hs2 : (dbscanState [(-5 : ℚ), -5, -5, -3, 0, 2, 4, 4, 4]
      ⟨3, 5, fun x => ⟨x, x⟩, fun a b => |a - b|⟩).isSome = true := by
    with_unfolding_all rfl
  have hread : (dbscanState [(-5 : ℚ), -5, -5, -3, 0, 2, 4, 4, 4]
      ⟨2, 5, fun x => ⟨x, x⟩, fun a b => |a - b|⟩).map
        (fun acc => (acc.1.labels 4, acc.1.labels 5)) = some (1, 1) := by
    with_unfolding_all rfl
  obtain ⟨acc1, hacc1⟩ := Option.isSome_iff_exists.mp hs1
  obtain ⟨acc2, hacc2⟩ := Option.isSome_iff_exists.mp hs2
  have hlab : acc1.1.labels 4 = 1 ∧ acc1.1.labels 5 = 1 := by
    rw [hacc1] at hread
    simp only [Option.map_some', Option.some.injEq, Prod.mk.injEq] at hread
    exact hread
  have h := c8_amended_membership_monotone
    [(-5 : ℚ), -5, -5, -3, 0, 2, 4, 4, 4]
    ⟨2, 5, fun x => ⟨x, x⟩, fun a b => |a - b|⟩ 3
    (by norm_num) (by norm_num) (by norm_num) 4 5
    acc1 (by rw [hacc1]; rfl) acc2 (by rw [hacc2]; rfl)
    (by rw [hlab.1]; norm_num) (by rw [hlab.1, hlab.2])
  exact ⟨acc1, hacc1, acc2, hacc2, h⟩

/-- **C10.** dbscan terminates on every input with valid parameters: the
seed neighbour lists entering the expansion queue are duplicate-free, the
guarded pushes keep the queue duplicate-free, a duplicate-free queue of
point indices can never exceed the point count (so the expansion loop runs
at most `n` iterations per cluster and the fuel `dbscan` supplies is
enough), and `dbscan` returns an `ok` cluster list. -/
theorem c10_termination {T : Type} [Inhabited T] (pts : List T)
    (o : DbOptions T) (h1 : 0 < o.eps) (h2 : 1 ≤ o.minPts) :
    (∀ i, (regionQuery pts o i).Nodup) ∧
      (∀ (queue nbs : List ℕ), queue.Nodup → (pushNew queue nbs).Nodup) ∧
      (∀ queue : List ℕ, queue.Nodup → (∀ x ∈ queue, x < pts.length) →
        queue.length ≤ pts.length) ∧
      ∃ r, dbscan pts o = .ok r := by
  refine ⟨regionQuery_nodup pts o,
    fun queue nbs h => pushNew_nodup nbs queue h,
    fun queue hnd hb => nodup_bounded_length queue pts.length hnd hb, ?_⟩
  rw [dbscan, if_neg (not_not_intro h1), if_neg (not_not_intro h2)]
  obtain ⟨acc, hacc⟩ := Option.isSome_iff_exists.mp (dbscanState_isSome pts o)
  rw [hacc]
  exact ⟨buildClusters pts o acc.1.labels, rfl⟩

/-- Witness for `c10_termination` at a concrete run. -/
theorem c10_termination_witness :
    ((0 : ℚ) < 1) ∧ ((1 : ℚ) ≤ 5) ∧
      ∃ r, dbscan [(0 : ℚ), 0, 0, 0]
        ⟨1, 5, fun x => ⟨x, x⟩, fun a b => |a - b|⟩ = .ok r :=
  ⟨by norm_num, by norm_num,
    (c10_termination [(0 : ℚ), 0, 0, 0]
      ⟨1, 5, fun x => ⟨x, x⟩, fun a b => |a - b|⟩
      (by norm_num) (by norm_num)).2.2.2⟩
